import Mathlib

/-!
Verification development for the bpy-geometries aggregate-assembly engine.

The Python source drives a host mesh kernel (boolean intersection/union,
bounding boxes) through `bpy`.  Following the spec's component boundaries, the
kernel is an external collaborator: we embed it as an abstract world record
(bounding-box oracle, intersection oracle, merge, rotation) and translate the
repository's own algorithmic code — the descent/contact searches, the retry
orchestration, the termination checks, the validation logic and the rosette
axis-overlap bookkeeping — as executable Lean functions over that world.

Numeric quantities handled by the repository's own arithmetic are embedded as
rationals (the Python floats); the rosette overlap test, which computes
`sin(acos(|dot|)/2)`, is embedded over the reals as a proposition, with the
algorithm parametric over a boolean decision procedure for it.
-/

/-- The seeded RNG of `AggregateIntersecting.__init__`
(`np.random.default_rng(seed)`): with a seed the draw stream is a
deterministic function `prng` of the seed; with `seed = None` the generator is
initialised from external entropy `ent`. -/
def rngStream {Q : Type} (prng : Nat → Nat → Q) (ent : Nat → Q) :
    Option Nat → Nat → Q
  | some s => prng s
  | none => ent

/-- Termination criterion after validation: exactly one of
`num_monomers` / `target_diameter` is set. -/
inductive Crit where
  | count : Nat → Crit
  | diameter : Rat → Crit

/-- Abstract host world for `AggregateIntersecting`.  `σ` is the type of solid
handles, `Q` the type of sampled quaternions.  The bounding-box fields are the
world-space corner extrema queried by `_get_bounding_box_z_extent` and
`_get_max_planar_diameter`; `isect m z a` is `_check_intersection` with the
monomer translated to `location.z = z`; `place m z` is the monomer after
`_apply_location`; `rot s q` applies and bakes a rotation
(`rotation_quaternion = q` followed by `_apply_rotation`). -/
structure IWorld (σ Q : Type) where
  fresh : σ
  rot : σ → Q → σ
  xMin : σ → Rat
  xMax : σ → Rat
  yMin : σ → Rat
  yMax : σ → Rat
  zMin : σ → Rat
  zMax : σ → Rat
  isect : σ → Rat → σ → Bool
  place : σ → Rat → σ
  merge : σ → σ → σ

/-- Z height of the world bounding box
(`_get_bounding_box_z_extent`, third component). -/
def IWorld.zHeight {σ Q : Type} (w : IWorld σ Q) (s : σ) : Rat :=
  w.zMax s - w.zMin s

/-- `max(x_extent, y_extent)` and friends, then the overall maximum:
the body of `_get_max_planar_diameter`, as a pure function of the three
bounding-box extents. -/
def maxPlanarOfExtents (ex ey ez : Rat) : Rat :=
  max (max ex ey) (max (max ex ez) (max ey ez))

/-- The three planar diameters `(xy, xz, yz)` returned as a dict by
`Aggregate._get_planar_diameters`, as a pure function of the extents. -/
def planarDiametersOfExtents (ex ey ez : Rat) : Rat × Rat × Rat :=
  (max ex ey, max ex ez, max ey ez)

/-- `AggregateIntersecting._get_max_planar_diameter` on a solid. -/
def IWorld.maxPlanarDiameter {σ Q : Type} (w : IWorld σ Q) (s : σ) : Rat :=
  maxPlanarOfExtents (w.xMax s - w.xMin s) (w.yMax s - w.yMin s)
    (w.zMax s - w.zMin s)

/-- The inner descent loop of `_translate_until_intersecting`
(`for _ in range(self.binary_search_steps)`): move the monomer down by the
current step, test intersection, return the position as soon as intersection
is found, otherwise halve the step and continue; `none` when all steps are
exhausted. -/
def descend (isect : Rat → Bool) : Nat → Rat → Rat → Option Rat
  | 0, _, _ => none
  | n + 1, z, step =>
    let zNext := z - step
    if isect zNext then some zNext else descend isect n zNext (step / 2)

/-- Position of the descent probe after `i + 1` downward moves starting from
`z0` with initial step `s0` (each move halves the step). -/
def probeZ (z0 s0 : Rat) (i : Nat) : Rat :=
  z0 - s0 * (2 - (1 / 2) ^ i)

/-- `_translate_until_intersecting`: up to `mr` (`max_retries`) attempts; each
attempt recomputes the monomer height and the aggregate's z extremum, places
the monomer at `agg_z_max + monomer_height`, runs the descent with initial
step `agg_height + monomer_height`, and on failure re-samples the aggregate's
global orientation from the quaternion stream `qs` (index `qi`) and retries.
Success returns the (possibly re-rotated) aggregate, the found z offset and
the next stream index; exhaustion returns the final stream index, modelling
the `False` return that makes the caller raise `RuntimeError`. -/
def translateUntilIntersecting {σ Q : Type} (w : IWorld σ Q) (qs : Nat → Q)
    (bss : Nat) (m : σ) : Nat → σ → Nat → Except Nat (σ × Rat × Nat)
  | 0, _, qi => .error qi
  | r + 1, a, qi =>
    let mh := w.zMax m - w.zMin m
    let z0 := w.zMax a + mh
    let s0 := (w.zMax a - w.zMin a) + mh
    match descend (fun z => w.isect m z a) bss z0 s0 with
    | some z => .ok (a, z, qi)
    | none => translateUntilIntersecting w qs bss m r (w.rot a (qs qi)) (qi + 1)

/-- Aggregate state after `k` successive re-orientations drawn from stream
positions `qi, qi+1, ...`. -/
def rotSeq {σ Q : Type} (w : IWorld σ Q) (qs : Nat → Q) (a : σ) (qi : Nat) :
    Nat → σ
  | 0 => a
  | k + 1 => w.rot (rotSeq w qs a qi k) (qs (qi + k))

/-- Observable outcome of a finished `AggregateIntersecting._create_geometry`
run: final aggregate (None only for a zero-count build), monomer counter,
number of quaternion draws consumed, number of boolean-union merges, the
placed monomers in order, and every diameter measurement made by
`should_continue` (diameter mode only). -/
structure IRes (σ : Type) where
  agg : Option σ
  count : Nat
  qi : Nat
  merges : Nat
  placed : List σ
  checks : List Rat

/-- The `RuntimeError` raised on search exhaustion, with the retry budget in
the message, the merges performed before the failure, and the quaternion
draws consumed. -/
structure IErr where
  retries : Nat
  merges : Nat
  qi : Nat

/-- The `should_continue` predicate of
`AggregateIntersecting._create_geometry`. -/
def contQ {σ Q : Type} (w : IWorld σ Q) (crit : Crit) (agg : Option σ)
    (count : Nat) : Bool :=
  match crit with
  | .count n => count < n
  | .diameter t =>
    match agg with
    | none => true
    | some a => w.maxPlanarDiameter a < t

/-- The diameter measurement performed inside `should_continue` when the
criterion is a target diameter and an aggregate exists. -/
def measureI {σ Q : Type} (w : IWorld σ Q) (crit : Crit) (agg : Option σ) :
    List Rat :=
  match crit, agg with
  | .diameter _, some a => [w.maxPlanarDiameter a]
  | _, _ => []

/-- The `while should_continue()` loop of
`AggregateIntersecting._create_geometry`, with explicit fuel (the source loop
in diameter mode is not structurally bounded).  First monomer: promoted to
the aggregate with its transforms merely baked (`_apply_rotation` /
`_apply_location` on the identity transform — no random pose).  Later
monomers: a quaternion is drawn for the monomer, one for the aggregate, the
descent search runs (consuming further draws on retries), failure raises, and
success merges the placed monomer into the aggregate. -/
def loopIntersecting {σ Q : Type} (w : IWorld σ Q) (crit : Crit)
    (qs : Nat → Q) (bss mr : Nat) :
    Nat → Option σ → Nat → Nat → Nat → List σ → List Rat →
      Option (Except IErr (IRes σ))
  | 0, agg, count, qi, merges, placed, checks =>
    let cks := checks ++ measureI w crit agg
    if contQ w crit agg count then none
    else some (.ok ⟨agg, count, qi, merges, placed, cks⟩)
  | fuel + 1, agg, count, qi, merges, placed, checks =>
    let cks := checks ++ measureI w crit agg
    if contQ w crit agg count then
      match agg with
      | none =>
        loopIntersecting w crit qs bss mr fuel (some w.fresh) (count + 1) qi
          merges (placed ++ [w.fresh]) cks
      | some a =>
        let m := w.rot w.fresh (qs qi)
        let a1 := w.rot a (qs (qi + 1))
        match translateUntilIntersecting w qs bss m mr a1 (qi + 2) with
        | .error qif => some (.error ⟨mr, merges, qif⟩)
        | .ok (a2, z, qi2) =>
          loopIntersecting w crit qs bss mr fuel (some (w.merge a2 (w.place m z)))
            (count + 1) qi2 (merges + 1) (placed ++ [w.place m z]) cks
    else some (.ok ⟨agg, count, qi, merges, placed, cks⟩)

/-- A full `AggregateIntersecting._create_geometry` run from the empty
state. -/
def buildIntersecting {σ Q : Type} (w : IWorld σ Q) (crit : Crit)
    (qs : Nat → Q) (bss mr fuel : Nat) : Option (Except IErr (IRes σ)) :=
  loopIntersecting w crit qs bss mr fuel none 0 0 0 [] []

/-- Abstract host world for the exact-touch builder `Aggregate`.  `E` is the
type of sampled Euler-angle triples (`_apply_random_rotation` draws three
uniforms from the module-level generator).  `isect m z a` is
`_check_intersection` with the monomer translated by `z` along the placement
axis. -/
structure TWorld (σ E : Type) where
  fresh : σ
  rot : σ → E → σ
  xMin : σ → Rat
  xMax : σ → Rat
  yMin : σ → Rat
  yMax : σ → Rat
  zMin : σ → Rat
  zMax : σ → Rat
  isect : σ → Rat → σ → Bool
  place : σ → Rat → σ
  merge : σ → σ → σ

/-- `Aggregate._get_bounding_box_z_height`. -/
def TWorld.zHeight {σ E : Type} (w : TWorld σ E) (s : σ) : Rat :=
  w.zMax s - w.zMin s

/-- `Aggregate._get_planar_diameters` (the dict `(xy, xz, yz)`). -/
def TWorld.planarDiameters {σ E : Type} (w : TWorld σ E) (s : σ) :
    Rat × Rat × Rat :=
  planarDiametersOfExtents (w.xMax s - w.xMin s) (w.yMax s - w.yMin s)
    (w.zMax s - w.zMin s)

/-- The step loop of `Aggregate._translate_until_touching`
(`for step in range(num_steps)` with `num_steps = 10`): at index `i` with `n`
iterations remaining, the step size is `monomer_bb / 2 ** i`; intersection is
tested at the current offset, and the monomer moves up by the step when
intersecting, down otherwise. -/
def translateTouchingAux (mh : Rat) (isect : Rat → Bool) :
    Rat → Nat → Nat → Rat
  | z, _, 0 => z
  | z, i, n + 1 =>
    let s := mh / 2 ^ i
    translateTouchingAux mh isect (if isect z then z + s else z - s) (i + 1) n

/-- `Aggregate._translate_until_touching`: the monomer (fresh, at offset 0)
first moves up by `(aggregate_bb + monomer_bb) / 2`, then runs the 10-step
test-and-move loop.  Returns the final z offset of the monomer.  The source
hard-codes `num_steps = 10`; the `Aggregate` class has no
`binary_search_steps` parameter. -/
def translateUntilTouching {σ E : Type} (w : TWorld σ E) (m a : σ) : Rat :=
  translateTouchingAux (w.zHeight m) (fun z => w.isect m z a)
    ((w.zHeight a + w.zHeight m) / 2) 0 10

/-- Reference recurrence for the exact-touch positions: `pos 0` is the
initial offset and `pos (i+1)` moves by `mh / 2 ^ i` up or down according to
the intersection test at `pos i`. -/
def touchPosSeq (mh : Rat) (isect : Rat → Bool) (z0 : Rat) : Nat → Rat
  | 0 => z0
  | i + 1 =>
    if isect (touchPosSeq mh isect z0 i) then
      touchPosSeq mh isect z0 i + mh / 2 ^ i
    else
      touchPosSeq mh isect z0 i - mh / 2 ^ i

/-- Step loop as the spec's words describe it (step size equal to the monomer
HALF-height divided by `2 ^ i`), kept separate from the source-translated
`translateTouchingAux` so the two can be compared.  The source uses the full
bounding-box height `monomer_bb / 2 ** step`. -/
def translateTouchingSpecAux (mh : Rat) (isect : Rat → Bool) :
    Rat → Nat → Nat → Rat
  | z, _, 0 => z
  | z, i, n + 1 =>
    let s := mh / 2 / 2 ^ i
    translateTouchingSpecAux mh isect (if isect z then z + s else z - s)
      (i + 1) n

/-- Outcome of the fixed-count branch of `Aggregate._create_geometry`. -/
structure TRes (σ : Type) where
  agg : Option σ
  count : Nat
  ei : Nat
  merges : Nat
  placed : List σ

/-- The `for i in range(self.num_monomers)` branch of
`Aggregate._create_geometry`, by recursion on the remaining iterations: the
first monomer is promoted to the aggregate unchanged; each later iteration
re-orients the aggregate with a fresh Euler draw (stream `es`, index `ei`),
runs the exact-touch search on a fresh monomer, bakes the offset and merges.
-/
def loopTouchingCount {σ E : Type} (w : TWorld σ E) (es : Nat → E) :
    Nat → Option σ → Nat → Nat → Nat → List σ → TRes σ
  | 0, agg, count, ei, merges, placed => ⟨agg, count, ei, merges, placed⟩
  | k + 1, none, count, ei, merges, placed =>
    loopTouchingCount w es k (some w.fresh) (count + 1) ei merges
      (placed ++ [w.fresh])
  | k + 1, some a, count, ei, merges, placed =>
    let a1 := w.rot a (es ei)
    let z := translateUntilTouching w w.fresh a1
    let mp := w.place w.fresh z
    loopTouchingCount w es k (some (w.merge a1 mp)) (count + 1) (ei + 1)
      (merges + 1) (placed ++ [mp])

/-- A fixed-count `Aggregate._create_geometry` run from the empty state. -/
def buildTouchingCount {σ E : Type} (w : TWorld σ E) (es : Nat → E)
    (n : Nat) : TRes σ :=
  loopTouchingCount w es n none 0 0 0 []

/-- Outcome of a finished diameter-mode `Aggregate._create_geometry` run:
the aggregate, the loop counter `i`, Euler draws consumed, merges performed,
the placed monomers, and the `(xy, xz, yz)` diameter dict printed and tested
after each merge, in order. -/
structure TDRes (σ : Type) where
  agg : σ
  count : Nat
  ei : Nat
  merges : Nat
  placed : List σ
  checks : List (Rat × Rat × Rat)

/-- The `while True` diameter branch of `Aggregate._create_geometry`, with
fuel: after the first monomer is promoted, each pass re-orients the
aggregate, touch-places and merges a fresh monomer, recomputes the planar
diameter dict, and breaks as soon as any of the three entries reaches the
target `t`. -/
def loopTouchingDiam {σ E : Type} (w : TWorld σ E) (es : Nat → E) (t : Rat) :
    Nat → σ → Nat → Nat → Nat → List σ → List (Rat × Rat × Rat) →
      Option (TDRes σ)
  | 0, _, _, _, _, _, _ => none
  | fuel + 1, a, count, ei, merges, placed, checks =>
    let a1 := w.rot a (es ei)
    let z := translateUntilTouching w w.fresh a1
    let mp := w.place w.fresh z
    let a2 := w.merge a1 mp
    let d := w.planarDiameters a2
    let cks := checks ++ [d]
    if t ≤ d.1 ∨ t ≤ d.2.1 ∨ t ≤ d.2.2 then
      some ⟨a2, count + 1, ei + 1, merges + 1, placed ++ [mp], cks⟩
    else
      loopTouchingDiam w es t fuel a2 (count + 1) (ei + 1) (merges + 1)
        (placed ++ [mp]) cks

/-- A diameter-mode `Aggregate._create_geometry` run from the empty state:
the first monomer becomes the aggregate (no pose, no draw), then the merge
loop runs. -/
def buildTouchingDiam {σ E : Type} (w : TWorld σ E) (es : Nat → E) (t : Rat)
    (fuel : Nat) : Option (TDRes σ) :=
  loopTouchingDiam w es t fuel w.fresh 1 0 0 [w.fresh] []

/-- The mutual-exclusion validation shared verbatim by `Aggregate.__init__`
and `AggregateIntersecting.__init__`: raise when neither of `num_monomers` /
`target_diameter` is given, then raise when both are; otherwise the builder
stores the criterion.  This runs in the constructor, before any geometry
work. -/
def validateAggregateConfig (numMonomers : Option Nat)
    (targetDiameter : Option Rat) : Except String Crit :=
  match numMonomers, targetDiameter with
  | none, none =>
    .error "Either num_monomers or target_diameter must be specified"
  | some _, some _ =>
    .error "Cannot specify both num_monomers and target_diameter"
  | some n, none => .ok (.count n)
  | none, some d => .ok (.diameter d)

/-- The range validation of `IndentedColumn.__init__`: raise when the
normalized indentation fraction lies outside `[0, 1]`, otherwise store it.
This runs in the constructor, before any geometry work. -/
def validateIndentation (a : Rat) : Except String Rat :=
  if a < 0 ∨ a > 1 then
    .error "indentation_amount must be between 0.0 and 1.0"
  else
    .ok a

/-- Column-axis record of the rosette builder: axis direction, radius,
length.  The source appends `(k_vector, self.radius, self.length)` to
`existing_columns` for every placed bullet. -/
structure ColRec (V : Type) where
  k : V
  r : Real
  l : Real

/-- The clamp `max(-1.0, min(1.0, dot_product))` of
`HexagonalBulletRosette._check_column_overlap`. -/
noncomputable def clampDot (d : Real) : Real := max (-1) (min 1 d)

/-- The angular separation `acos(abs(dot))` computed by
`_check_column_overlap` — taking the absolute value folds the angle into
`[0, pi/2]`. -/
noncomputable def foldedAngle {V : Type} (dotf : V → V → Real) (k1 k2 : V) : Real :=
  Real.arccos |clampDot (dotf k1 k2)|

/-- `_check_column_overlap` as a real-number proposition: the candidate
overlaps an existing column when the guard `angle > pi/2` does not fire and
`sin(angle/2) < (radius_new + radius_existing) / (2 * min(lengths))`.  The
float comparison of the source is embedded over the reals; the algorithm
below is parametric over a boolean procedure deciding this proposition. -/
def overlapProp {V : Type} (dotf : V → V → Real) (k1 : V) (r1 l1 : Real)
    (k2 : V) (r2 l2 : Real) : Prop :=
  foldedAngle dotf k1 k2 ≤ Real.pi / 2 ∧
    Real.sin (foldedAngle dotf k1 k2 / 2) < (r1 + r2) / (2 * min l1 l2)

/-- The separation property the spec asserts for any two recorded axes:
`sin(theta/2)` at least `(r1 + r2) / (2 * min(l1, l2))` for the folded
angle `theta`. -/
def rosetteSeparation {V : Type} (dotf : V → V → Real) (a b : ColRec V) :
    Prop :=
  (a.r + b.r) / (2 * min a.l b.l) ≤ Real.sin (foldedAngle dotf a.k b.k / 2)

/-- `HexagonalBulletRosette._find_non_overlapping_rotation`: draw candidates
from the stream `cands` (index `ci`), reject a candidate as soon as it
overlaps any existing column, accept the first candidate that overlaps none;
give up after the attempt budget.  The axis vector of a candidate rotation is
abstracted as the stream element itself (the invariant does not depend on how
`_compute_column_axis_vector` derives it from the Euler draw). -/
def findNonOverlappingRotation {V : Type} (chk : V → ColRec V → Bool)
    (cands : Nat → V) (existing : List (ColRec V)) :
    Nat → Nat → Option (V × Nat)
  | _, 0 => none
  | ci, a + 1 =>
    let k := cands ci
    if existing.any (fun c => chk k c) then
      findNonOverlappingRotation chk cands existing (ci + 1) a
    else some (k, ci + 1)

/-- The bullet loop of `HexagonalBulletRosette._create_geometry`
(`for i in range(1, self.num_bullets)`), restricted to its record-keeping: a
successful search appends `(k, radius, length)` to the records, a failed
search skips the bullet without recording anything.  A failed search consumes
its whole attempt budget from the candidate stream. -/
def rosetteRecords {V : Type} (chk : V → ColRec V → Bool) (cands : Nat → V)
    (R L : Real) (attempts : Nat) :
    Nat → List (ColRec V) → Nat → List (ColRec V)
  | 0, recs, _ => recs
  | m + 1, recs, ci =>
    match findNonOverlappingRotation chk cands recs ci attempts with
    | none => rosetteRecords chk cands R L attempts m recs (ci + attempts)
    | some (k, ci2) =>
      rosetteRecords chk cands R L attempts m (recs ++ [⟨k, R, L⟩]) ci2

/-- The record list after a full `_create_geometry` run with `n` bullets:
the first bullet's axis is recorded unconditionally (it is checked against
nothing), then `n - 1` further bullets are attempted. -/
def rosetteRun {V : Type} (chk : V → ColRec V → Bool) (cands : Nat → V)
    (R L : Real) (attempts n : Nat) : List (ColRec V) :=
  rosetteRecords chk cands R L attempts (n - 1) [⟨cands 0, R, L⟩] 1

/-- Concrete host world with a universally-true intersection oracle and a
monomer-counting merge, used to exercise the builders on closed inputs:
a solid is the number of monomers fused into it, the x extent grows with that
number, and every descent probe reports an intersection at once. -/
def cwI : IWorld Nat Rat :=
  ⟨1, fun s _ => s, fun _ => 0, fun s => (s : Rat), fun _ => 0, fun _ => 0,
    fun _ => 0, fun _ => 1, fun _ _ _ => true, fun s _ => s,
    fun a b => a + b⟩

/-- Concrete host world whose intersection oracle never fires: every descent
fails, so the overlapping-contact search exhausts its retries. -/
def cwFail : IWorld Nat Rat :=
  ⟨1, fun s _ => s, fun _ => 0, fun s => (s : Rat), fun _ => 0, fun _ => 0,
    fun _ => 0, fun _ => 1, fun _ _ _ => false, fun s _ => s,
    fun a b => a + b⟩

/-- Concrete host world with an observable rotation action (`rot` increments
the handle), used to witness that the first monomer is promoted without any
pose being applied. -/
def cwRot : IWorld Nat Rat :=
  ⟨0, fun s _ => s + 1, fun _ => 0, fun s => (s : Rat), fun _ => 0,
    fun _ => 0, fun _ => 0, fun _ => 1, fun _ _ _ => true, fun s _ => s,
    fun a b => a + b⟩

/-- Concrete exact-touch world mirroring `cwI` for the `Aggregate` builder. -/
def twT : TWorld Nat Nat :=
  ⟨1, fun s _ => s, fun _ => 0, fun s => (s : Rat), fun _ => 0, fun _ => 0,
    fun _ => 0, fun _ => 1, fun _ _ _ => false, fun s _ => s,
    fun a b => a + b⟩

/-- Concrete exact-touch world where monomer and aggregate both have bounding
z height 2 and no probe ever reports an intersection, exposing the step sizes
of the touch search through the final offset. -/
def twC4 : TWorld Unit Nat :=
  ⟨(), fun s _ => s, fun _ => 0, fun _ => 0, fun _ => 0, fun _ => 0,
    fun _ => -1, fun _ => 1, fun _ _ _ => false, fun s _ => s,
    fun _ _ => ()⟩

/-- Two-axis vector model for the rosette witness: `true` stands for the
z axis, `false` for the x axis; the dot product is 1 on equal axes and 0 on
distinct ones. -/
noncomputable def dotB (a b : Bool) : Real := if a == b then 1 else 0

/-- Boolean overlap procedure matching `overlapProp` over `dotB` with radius
1 and length 4: two of these columns overlap exactly when their axes
coincide. -/
def chkB (k : Bool) (c : ColRec Bool) : Bool := k == c.k

/-- Alternating candidate axis stream for the rosette witness. -/
def candsB (j : Nat) : Bool := j % 2 == 0

/-- One when an aggregate exists, zero in the empty state: the number of
solids currently promoted to the aggregate slot. -/
def optK {σ : Type} : Option σ → Nat
  | none => 0
  | some _ => 1

/-- Monomer-provenance count of the aggregate slot under an abstraction
`p` that counts the monomers fused into a solid. -/
def provOpt {σ : Type} (p : σ → Nat) : Option σ → Nat
  | none => 0
  | some a => p a

/-- First probe position: one full step below the start. -/
theorem probeZ_zero (z0 s0 : Rat) : probeZ z0 s0 0 = z0 - s0 := by
  norm_num [probeZ]

/-- Restarting the probe sequence one step down with a halved step shifts the
index by one. -/
theorem probeZ_shift (z0 s0 : Rat) (i : Nat) :
    probeZ (z0 - s0) (s0 / 2) i = probeZ z0 s0 (i + 1) := by
  simp only [probeZ, pow_succ]
  ring

/-- The descent succeeds exactly at the first probe position that reports an
intersection, and returns that position. -/
theorem descend_some_iff (isect : Rat → Bool) :
    ∀ (n : Nat) (z0 s0 zf : Rat),
      descend isect n z0 s0 = some zf ↔
        ∃ i, i < n ∧ isect (probeZ z0 s0 i) = true ∧
          (∀ j, j < i → isect (probeZ z0 s0 j) = false) ∧
          zf = probeZ z0 s0 i := by
  intro n
  induction n with
  | zero => intro z0 s0 zf; simp [descend]
  | succ n ih =>
    intro z0 s0 zf
    by_cases h : isect (z0 - s0) = true
    · constructor
      · intro hd
        have hz : some (z0 - s0) = some zf := by
          simpa [descend, h] using hd
        refine ⟨0, Nat.succ_pos n, ?_, ?_, ?_⟩
        · rw [probeZ_zero]; exact h
        · intro j hj; omega
        · rw [probeZ_zero]; exact (Option.some_inj.mp hz).symm
      · rintro ⟨i, hi, hit, hmiss, rfl⟩
        cases i with
        | zero => simp [descend, h, probeZ_zero]
        | succ i =>
          exfalso
          have h0 := hmiss 0 (Nat.succ_pos i)
          rw [probeZ_zero] at h0
          rw [h] at h0
          cases h0
    · have h' : isect (z0 - s0) = false := by
        simpa using h
      constructor
      · intro hd
        have hd' : descend isect n (z0 - s0) (s0 / 2) = some zf := by
          simpa [descend, h'] using hd
        obtain ⟨i, hi, hit, hmiss, hz⟩ := (ih (z0 - s0) (s0 / 2) zf).mp hd'
        refine ⟨i + 1, by omega, ?_, ?_, ?_⟩
        · rwa [probeZ_shift] at hit
        · intro j hj
          cases j with
          | zero => rw [probeZ_zero]; exact h'
          | succ j =>
            rw [← probeZ_shift]
            exact hmiss j (by omega)
        · rwa [probeZ_shift] at hz
      · rintro ⟨i, hi, hit, hmiss, rfl⟩
        cases i with
        | zero =>
          rw [probeZ_zero] at hit
          rw [h'] at hit
          cases hit
        | succ i =>
          have hrec : descend isect n (z0 - s0) (s0 / 2) =
              some (probeZ z0 s0 (i + 1)) := by
            refine (ih _ _ _).mpr ⟨i, by omega, ?_, ?_, ?_⟩
            · rw [probeZ_shift]; exact hit
            · intro j hj
              rw [probeZ_shift]
              exact hmiss (j + 1) (by omega)
            · rw [probeZ_shift]
          simp [descend, h', hrec]

/-- No rotation leaves the aggregate unchanged. -/
theorem rotSeq_zero {σ Q : Type} (w : IWorld σ Q) (qs : Nat → Q) (a : σ)
    (qi : Nat) : rotSeq w qs a qi 0 = a := rfl

/-- Starting the rotation sequence after one applied rotation shifts the
index by one. -/
theorem rotSeq_shift {σ Q : Type} (w : IWorld σ Q) (qs : Nat → Q) (a : σ)
    (qi : Nat) :
    ∀ k, rotSeq w qs (w.rot a (qs qi)) (qi + 1) k = rotSeq w qs a qi (k + 1) := by
  intro k
  induction k with
  | zero => simp [rotSeq]
  | succ k ih =>
    have harith : qi + 1 + k = qi + (k + 1) := by omega
    rw [rotSeq, ih, harith]
    rfl

/-- The retry loop returns success exactly when some attempt `k` below the
retry budget finds an intersection: the aggregate returned is the input
aggregate re-oriented `k` times, `k` quaternion draws are consumed, attempt
`k`'s descent (placed at the re-oriented aggregate's `z_max` plus the monomer
height, with initial step the sum of the two heights) succeeds, and every
earlier attempt's descent fails. -/
theorem translateUntilIntersecting_ok_iff {σ Q : Type} (w : IWorld σ Q)
    (qs : Nat → Q) (bss : Nat) (m : σ) :
    ∀ (mr : Nat) (a : σ) (qi : Nat) (a2 : σ) (zf : Rat) (qi2 : Nat),
      translateUntilIntersecting w qs bss m mr a qi = .ok (a2, zf, qi2) ↔
        ∃ k, k < mr ∧ a2 = rotSeq w qs a qi k ∧ qi2 = qi + k ∧
          descend (fun z => w.isect m z a2) bss
            (w.zMax a2 + (w.zMax m - w.zMin m))
            ((w.zMax a2 - w.zMin a2) + (w.zMax m - w.zMin m)) = some zf ∧
          (∀ j, j < k →
            descend (fun z => w.isect m z (rotSeq w qs a qi j)) bss
              (w.zMax (rotSeq w qs a qi j) + (w.zMax m - w.zMin m))
              ((w.zMax (rotSeq w qs a qi j) - w.zMin (rotSeq w qs a qi j)) +
                (w.zMax m - w.zMin m)) = none) := by
  intro mr
  induction mr with
  | zero =>
    intro a qi a2 zf qi2
    simp [translateUntilIntersecting]
  | succ mr ih =>
    intro a qi a2 zf qi2
    rcases hd : descend (fun z => w.isect m z a) bss
        (w.zMax a + (w.zMax m - w.zMin m))
        ((w.zMax a - w.zMin a) + (w.zMax m - w.zMin m)) with _ | z1
    · constructor
      · intro ht
        have ht' : translateUntilIntersecting w qs bss m mr
            (w.rot a (qs qi)) (qi + 1) = .ok (a2, zf, qi2) := by
          simpa [translateUntilIntersecting, hd] using ht
        obtain ⟨k, hk, ha2, hqi2, hds, hmiss⟩ := (ih _ _ _ _ _).mp ht'
        rw [rotSeq_shift] at ha2
        refine ⟨k + 1, by omega, ha2, by omega, hds, ?_⟩
        intro j hj
        cases j with
        | zero =>
          rw [rotSeq_zero]
          exact hd
        | succ j =>
          rw [← rotSeq_shift]
          exact hmiss j (by omega)
      · rintro ⟨k, hk, ha2, hqi2, hds, hmiss⟩
        cases k with
        | zero =>
          rw [rotSeq_zero] at ha2
          subst ha2
          rw [hd] at hds
          cases hds
        | succ k =>
          have hmiss' : ∀ j, j < k →
              descend (fun z => w.isect m z
                  (rotSeq w qs (w.rot a (qs qi)) (qi + 1) j)) bss
                (w.zMax (rotSeq w qs (w.rot a (qs qi)) (qi + 1) j) +
                  (w.zMax m - w.zMin m))
                ((w.zMax (rotSeq w qs (w.rot a (qs qi)) (qi + 1) j) -
                  w.zMin (rotSeq w qs (w.rot a (qs qi)) (qi + 1) j)) +
                  (w.zMax m - w.zMin m)) = none := by
            intro j hj
            rw [rotSeq_shift]
            exact hmiss (j + 1) (by omega)
          have ht' : translateUntilIntersecting w qs bss m mr
              (w.rot a (qs qi)) (qi + 1) = .ok (a2, zf, qi2) :=
            (ih _ _ _ _ _).mpr ⟨k, by omega, by rw [rotSeq_shift]; exact ha2,
              by omega, hds, hmiss'⟩
          simpa [translateUntilIntersecting, hd] using ht'
    · constructor
      · intro ht
        have hok : (Except.ok (a, z1, qi) : Except Nat (σ × Rat × Nat)) =
            .ok (a2, zf, qi2) := by
          simpa [translateUntilIntersecting, hd] using ht
        have htr : a = a2 ∧ z1 = zf ∧ qi = qi2 := by
          simpa using hok
        obtain ⟨ha, hz, hq⟩ := htr
        subst ha; subst hz; subst hq
        exact ⟨0, Nat.succ_pos mr, (rotSeq_zero w qs a qi).symm, by omega,
          hd, by intro j hj; omega⟩
      · rintro ⟨k, hk, ha2, hqi2, hds, hmiss⟩
        cases k with
        | zero =>
          rw [rotSeq_zero] at ha2
          subst ha2
          rw [hd] at hds
          have hz : z1 = zf := by simpa using hds
          subst hz
          have hq : qi2 = qi := by omega
          subst hq
          simp [translateUntilIntersecting, hd]
        | succ k =>
          exfalso
          have h0 := hmiss 0 (Nat.succ_pos k)
          rw [rotSeq_zero] at h0
          rw [hd] at h0
          cases h0

/-- C1: For every call of the overlapping-contact placement search
(`AggregateIntersecting._translate_until_intersecting`) and every retry
attempt, the monomer is first placed at z = aggregate's max z plus the
monomer's bounding-box height, the initial step equals aggregate height plus
monomer height, and for `binary_search_steps` iterations the monomer is moved
down by the current (halving) step and then tested for intersection; the
search returns success at the first probe that intersects (no further moves),
and if no probe intersects the aggregate's global orientation is re-sampled
and the whole descent is retried.  Stated as: the descent returns exactly the
first intersecting probe position, and the retry loop succeeds exactly on the
first attempt whose descent (started at the stated offset and step) succeeds,
after re-orienting the aggregate once per failed attempt. -/
theorem claim_C1_overlapping_contact_search {σ Q : Type} (w : IWorld σ Q)
    (qs : Nat → Q) (bss : Nat) (m : σ) :
    (∀ (isect : Rat → Bool) (n : Nat) (z0 s0 zf : Rat),
      descend isect n z0 s0 = some zf ↔
        ∃ i, i < n ∧ isect (probeZ z0 s0 i) = true ∧
          (∀ j, j < i → isect (probeZ z0 s0 j) = false) ∧
          zf = probeZ z0 s0 i) ∧
    (∀ (mr : Nat) (a : σ) (qi : Nat) (a2 : σ) (zf : Rat) (qi2 : Nat),
      translateUntilIntersecting w qs bss m mr a qi = .ok (a2, zf, qi2) ↔
        ∃ k, k < mr ∧ a2 = rotSeq w qs a qi k ∧ qi2 = qi + k ∧
          descend (fun z => w.isect m z a2) bss
            (w.zMax a2 + (w.zMax m - w.zMin m))
            ((w.zMax a2 - w.zMin a2) + (w.zMax m - w.zMin m)) = some zf ∧
          (∀ j, j < k →
            descend (fun z => w.isect m z (rotSeq w qs a qi j)) bss
              (w.zMax (rotSeq w qs a qi j) + (w.zMax m - w.zMin m))
              ((w.zMax (rotSeq w qs a qi j) - w.zMin (rotSeq w qs a qi j)) +
                (w.zMax m - w.zMin m)) = none)) :=
  ⟨fun isect => descend_some_iff isect,
    translateUntilIntersecting_ok_iff w qs bss m⟩

/-- A successful retry loop only re-orients the aggregate, so any
rotation-invariant monomer count of the aggregate is unchanged. -/
theorem translateUntilIntersecting_ok_prov {σ Q : Type} (w : IWorld σ Q)
    (qs : Nat → Q) (bss : Nat) (m : σ) (p : σ → Nat)
    (hrot : ∀ s q, p (w.rot s q) = p s) :
    ∀ (mr : Nat) (a : σ) (qi : Nat) (a2 : σ) (zf : Rat) (qi2 : Nat),
      translateUntilIntersecting w qs bss m mr a qi = .ok (a2, zf, qi2) →
      p a2 = p a := by
  intro mr
  induction mr with
  | zero =>
    intro a qi a2 zf qi2 h
    simp [translateUntilIntersecting] at h
  | succ mr ih =>
    intro a qi a2 zf qi2 h
    rcases hd : descend (fun z => w.isect m z a) bss
        (w.zMax a + (w.zMax m - w.zMin m))
        ((w.zMax a - w.zMin a) + (w.zMax m - w.zMin m)) with _ | z1
    · have h' : translateUntilIntersecting w qs bss m mr
          (w.rot a (qs qi)) (qi + 1) = .ok (a2, zf, qi2) := by
        simpa [translateUntilIntersecting, hd] using h
      rw [ih _ _ _ _ _ h', hrot]
    · have heq : a = a2 ∧ z1 = zf ∧ qi = qi2 := by
        simpa [translateUntilIntersecting, hd] using h
      rw [← heq.1]

/-- Bookkeeping invariant of the `should_continue` loop: on any finished run,
merges lag the monomer counter by exactly the presence of an aggregate, every
counted monomer is in the placed list, the aggregate slot is only empty while
the counter is zero, and any rotation/placement-invariant, merge-additive
monomer count of the aggregate equals the counter. -/
theorem loopIntersecting_ok_inv {σ Q : Type} (w : IWorld σ Q) (crit : Crit)
    (qs : Nat → Q) (bss mr : Nat) :
    ∀ (fuel : Nat) (agg : Option σ) (count qi merges : Nat)
      (placed : List σ) (checks : List Rat) (r : IRes σ),
      loopIntersecting w crit qs bss mr fuel agg count qi merges placed
          checks = some (.ok r) →
      merges + optK agg = count → placed.length = count →
      (agg = none → count = 0) →
      r.merges + optK r.agg = r.count ∧ r.placed.length = r.count ∧
        (r.agg = none → r.count = 0) ∧
        (∀ p : σ → Nat, (∀ s q, p (w.rot s q) = p s) →
          (∀ s z, p (w.place s z) = p s) →
          (∀ a b, p (w.merge a b) = p a + p b) → p w.fresh = 1 →
          provOpt p agg = count → provOpt p r.agg = r.count) := by
  intro fuel
  induction fuel with
  | zero =>
    intro agg count qi merges placed checks r h h1 h2 h4
    by_cases hc : contQ w crit agg count = true
    · simp [loopIntersecting, hc] at h
    · have hc' : contQ w crit agg count = false := by simpa using hc
      have hr : (⟨agg, count, qi, merges, placed,
          checks ++ measureI w crit agg⟩ : IRes σ) = r := by
        simpa [loopIntersecting, hc'] using h
      rw [← hr]
      exact ⟨h1, h2, h4, fun p _ _ _ _ h3 => h3⟩
  | succ fuel ih =>
    intro agg count qi merges placed checks r h h1 h2 h4
    by_cases hc : contQ w crit agg count = true
    · cases agg with
      | none =>
        have h' : loopIntersecting w crit qs bss mr fuel (some w.fresh)
            (count + 1) qi merges (placed ++ [w.fresh])
            (checks ++ measureI w crit none) = some (.ok r) := by
          simpa [loopIntersecting, hc] using h
        have hcount0 : count = 0 := h4 rfl
        have hrec := ih _ _ _ _ _ _ _ h'
          (by simp [optK] at h1 ⊢; omega) (by simp [h2])
          (fun hnone => by cases hnone)
        refine ⟨hrec.1, hrec.2.1, hrec.2.2.1, ?_⟩
        intro p hrot hplace hmerge hfresh h3
        exact hrec.2.2.2 p hrot hplace hmerge hfresh
          (by simp [provOpt, hfresh]; omega)
      | some a =>
        rcases htr : translateUntilIntersecting w qs bss
            (w.rot w.fresh (qs qi)) mr (w.rot a (qs (qi + 1))) (qi + 2)
          with qif | res
        · simp [loopIntersecting, hc, htr] at h
        · obtain ⟨a2, zf, qi2⟩ := res
          have h' : loopIntersecting w crit qs bss mr fuel
              (some (w.merge a2 (w.place (w.rot w.fresh (qs qi)) zf)))
              (count + 1) qi2 (merges + 1)
              (placed ++ [w.place (w.rot w.fresh (qs qi)) zf])
              (checks ++ measureI w crit (some a)) = some (.ok r) := by
            simpa [loopIntersecting, hc, htr] using h
          have hrec := ih _ _ _ _ _ _ _ h'
            (by simp [optK] at h1 ⊢; omega) (by simp [h2])
            (fun hnone => by cases hnone)
          refine ⟨hrec.1, hrec.2.1, hrec.2.2.1, ?_⟩
          intro p hrot hplace hmerge hfresh h3
          have hpa2 : p a2 = p a := by
            have hstep := translateUntilIntersecting_ok_prov w qs bss
              (w.rot w.fresh (qs qi)) p hrot mr (w.rot a (qs (qi + 1)))
              (qi + 2) a2 zf qi2 htr
            rw [hstep, hrot]
          apply hrec.2.2.2 p hrot hplace hmerge hfresh
          simp [provOpt] at h3 ⊢
          rw [hmerge, hplace, hrot, hpa2, hfresh, h3]
    · have hc' : contQ w crit agg count = false := by simpa using hc
      have hr : (⟨agg, count, qi, merges, placed,
          checks ++ measureI w crit agg⟩ : IRes σ) = r := by
        simpa [loopIntersecting, hc'] using h
      rw [← hr]
      exact ⟨h1, h2, h4, fun p _ _ _ _ h3 => h3⟩

/-- In fixed-count mode a finished run ends with the monomer counter exactly
at the configured count. -/
theorem loopIntersecting_count_final {σ Q : Type} (w : IWorld σ Q)
    (qs : Nat → Q) (bss mr n : Nat) :
    ∀ (fuel : Nat) (agg : Option σ) (count qi merges : Nat)
      (placed : List σ) (checks : List Rat) (r : IRes σ),
      loopIntersecting w (.count n) qs bss mr fuel agg count qi merges placed
          checks = some (.ok r) →
      count ≤ n → r.count = n := by
  intro fuel
  induction fuel with
  | zero =>
    intro agg count qi merges placed checks r h hle
    by_cases hc : contQ w (.count n) agg count = true
    · simp [loopIntersecting, hc] at h
    · have hc' : contQ w (.count n) agg count = false := by simpa using hc
      have hlt : ¬ count < n := by simpa [contQ] using hc'
      have hr : (⟨agg, count, qi, merges, placed,
          checks ++ measureI w (.count n) agg⟩ : IRes σ) = r := by
        simpa [loopIntersecting, hc'] using h
      rw [← hr]
      simp
      omega
  | succ fuel ih =>
    intro agg count qi merges placed checks r h hle
    by_cases hc : contQ w (.count n) agg count = true
    · have hlt : count < n := by simpa [contQ] using hc
      cases agg with
      | none =>
        have h' : loopIntersecting w (.count n) qs bss mr fuel (some w.fresh)
            (count + 1) qi merges (placed ++ [w.fresh])
            (checks ++ measureI w (.count n) none) = some (.ok r) := by
          simpa [loopIntersecting, hc] using h
        exact ih _ _ _ _ _ _ _ h' (by omega)
      | some a =>
        rcases htr : translateUntilIntersecting w qs bss
            (w.rot w.fresh (qs qi)) mr (w.rot a (qs (qi + 1))) (qi + 2)
          with qif | res
        · simp [loopIntersecting, hc, htr] at h
        · obtain ⟨a2, zf, qi2⟩ := res
          have h' : loopIntersecting w (.count n) qs bss mr fuel
              (some (w.merge a2 (w.place (w.rot w.fresh (qs qi)) zf)))
              (count + 1) qi2 (merges + 1)
              (placed ++ [w.place (w.rot w.fresh (qs qi)) zf])
              (checks ++ measureI w (.count n) (some a)) = some (.ok r) := by
            simpa [loopIntersecting, hc, htr] using h
          exact ih _ _ _ _ _ _ _ h' (by omega)
    · have hc' : contQ w (.count n) agg count = false := by simpa using hc
      have hlt : ¬ count < n := by simpa [contQ] using hc'
      have hr : (⟨agg, count, qi, merges, placed,
          checks ++ measureI w (.count n) agg⟩ : IRes σ) = r := by
        simpa [loopIntersecting, hc'] using h
      rw [← hr]
      simp
      omega


/-- Bookkeeping invariant of the fixed-count exact-touch loop: the run always
terminates after its `k` iterations, merges lag the monomer counter by the
presence of an aggregate, placed monomers match the counter, the slot is
empty only at counter zero, and any rotation/placement-invariant,
merge-additive monomer count of the aggregate tracks the counter. -/
theorem loopTouchingCount_inv {σ E : Type} (w : TWorld σ E) (es : Nat → E) :
    ∀ (k : Nat) (agg : Option σ) (count ei merges : Nat) (placed : List σ)
      (r : TRes σ),
      loopTouchingCount w es k agg count ei merges placed = r →
      merges + optK agg = count → placed.length = count →
      (agg = none → count = 0) →
      r.merges + optK r.agg = r.count ∧ r.count = count + k ∧
        r.placed.length = r.count ∧ (r.agg = none → r.count = 0) ∧
        (∀ p : σ → Nat, (∀ s e, p (w.rot s e) = p s) →
          (∀ s z, p (w.place s z) = p s) →
          (∀ a b, p (w.merge a b) = p a + p b) → p w.fresh = 1 →
          provOpt p agg = count → provOpt p r.agg = r.count) := by
  intro k
  induction k with
  | zero =>
    intro agg count ei merges placed r h h1 h2 h4
    rw [loopTouchingCount] at h
    rw [← h]
    exact ⟨h1, rfl, h2, h4, fun p _ _ _ _ h3 => h3⟩
  | succ k ih =>
    intro agg count ei merges placed r h h1 h2 h4
    cases agg with
    | none =>
      have h' : loopTouchingCount w es k (some w.fresh) (count + 1) ei merges
          (placed ++ [w.fresh]) = r := by
        rw [← h]
        rfl
      have hcount0 : count = 0 := h4 rfl
      have hrec := ih _ _ _ _ _ _ h'
        (by simp [optK] at h1 ⊢; omega) (by simp [h2])
        (fun hnone => by cases hnone)
      refine ⟨hrec.1, by omega, hrec.2.2.1, hrec.2.2.2.1, ?_⟩
      intro p hrot hplace hmerge hfresh h3
      exact hrec.2.2.2.2 p hrot hplace hmerge hfresh
        (by simp [provOpt, hfresh]; omega)
    | some a =>
      have h' : loopTouchingCount w es k
          (some (w.merge (w.rot a (es ei))
            (w.place w.fresh (translateUntilTouching w w.fresh
              (w.rot a (es ei))))))
          (count + 1) (ei + 1) (merges + 1)
          (placed ++ [w.place w.fresh (translateUntilTouching w w.fresh
            (w.rot a (es ei)))]) = r := by
        rw [← h]
        rfl
      have hrec := ih _ _ _ _ _ _ h'
        (by simp [optK] at h1 ⊢; omega) (by simp [h2])
        (fun hnone => by cases hnone)
      refine ⟨hrec.1, by omega, hrec.2.2.1, hrec.2.2.2.1, ?_⟩
      intro p hrot hplace hmerge hfresh h3
      apply hrec.2.2.2.2 p hrot hplace hmerge hfresh
      simp [provOpt] at h3 ⊢
      rw [hmerge, hplace, hrot, hfresh, h3]

/-- C5: For every fixed-count build with n monomers (n at least 1) that
completes successfully, exactly n - 1 boolean-union merges occur and the
resulting aggregate contains the geometry of all n monomers — stated for both
builders, with containment expressed as: every monomer count abstraction that
is invariant under rotation and placement, additive under merge, and one on a
fresh monomer, evaluates to n on the final aggregate. -/
theorem claim_C5_fixed_count_build :
    (∀ (σ Q : Type) (w : IWorld σ Q) (qs : Nat → Q) (bss mr fuel n : Nat)
      (r : IRes σ), 1 ≤ n →
      buildIntersecting w (.count n) qs bss mr fuel = some (.ok r) →
      r.merges = n - 1 ∧ r.count = n ∧ r.placed.length = n ∧ r.agg ≠ none ∧
        (∀ p : σ → Nat, (∀ s q, p (w.rot s q) = p s) →
          (∀ s z, p (w.place s z) = p s) →
          (∀ a b, p (w.merge a b) = p a + p b) → p w.fresh = 1 →
          provOpt p r.agg = n)) ∧
    (∀ (σ E : Type) (w : TWorld σ E) (es : Nat → E) (n : Nat), 1 ≤ n →
      (buildTouchingCount w es n).merges = n - 1 ∧
      (buildTouchingCount w es n).count = n ∧
      (buildTouchingCount w es n).placed.length = n ∧
      (buildTouchingCount w es n).agg ≠ none ∧
        (∀ p : σ → Nat, (∀ s e, p (w.rot s e) = p s) →
          (∀ s z, p (w.place s z) = p s) →
          (∀ a b, p (w.merge a b) = p a + p b) → p w.fresh = 1 →
          provOpt p (buildTouchingCount w es n).agg = n)) := by
  constructor
  · intro σ Q w qs bss mr fuel n r hn h
    have hinv := loopIntersecting_ok_inv w (.count n) qs bss mr fuel none
      0 0 0 [] [] r h (by simp [optK]) rfl (fun _ => rfl)
    have hcnt := loopIntersecting_count_final w qs bss mr n fuel none
      0 0 0 [] [] r h (Nat.zero_le n)
    have hne : r.agg ≠ none := by
      intro heq
      have := hinv.2.2.1 heq
      omega
    have hoptK : optK r.agg = 1 := by
      rcases hagg : r.agg with _ | a
      · exact absurd hagg hne
      · simp [optK]
    refine ⟨by have := hinv.1; omega, hcnt, by rw [hinv.2.1, hcnt], hne, ?_⟩
    intro p hrot hplace hmerge hfresh
    have := hinv.2.2.2 p hrot hplace hmerge hfresh (by simp [provOpt])
    rw [this, hcnt]
  · intro σ E w es n hn
    have hinv := loopTouchingCount_inv w es n none 0 0 0 []
      (buildTouchingCount w es n) rfl (by simp [optK]) rfl (fun _ => rfl)
    have hcnt : (buildTouchingCount w es n).count = n := by
      have := hinv.2.1
      omega
    have hne : (buildTouchingCount w es n).agg ≠ none := by
      intro heq
      have := hinv.2.2.2.1 heq
      omega
    have hoptK : optK (buildTouchingCount w es n).agg = 1 := by
      rcases hagg : (buildTouchingCount w es n).agg with _ | a
      · exact absurd hagg hne
      · simp [optK]
    refine ⟨by have := hinv.1; omega, hcnt, by rw [hinv.2.2.1, hcnt], hne, ?_⟩
    intro p hrot hplace hmerge hfresh
    have := hinv.2.2.2.2 p hrot hplace hmerge hfresh (by simp [provOpt])
    rw [this, hcnt]

/-- Closed instance of C5: a three-monomer build in the counting world
performs exactly two merges, counts three monomers, and yields an aggregate
whose monomer provenance is three — for both builders. -/
theorem claim_C5_witness :
    ((⟨some 3, 3, 4, 2, [1, 1, 1], []⟩ : IRes Nat).merges = 3 - 1 ∧
      (⟨some 3, 3, 4, 2, [1, 1, 1], []⟩ : IRes Nat).count = 3 ∧
      provOpt (fun s => s)
        (⟨some 3, 3, 4, 2, [1, 1, 1], []⟩ : IRes Nat).agg = 3) ∧
    ((buildTouchingCount twT (fun _ => 0) 3).merges = 3 - 1 ∧
      provOpt (fun s => s) (buildTouchingCount twT (fun _ => 0) 3).agg = 3) := by
  have h1 := claim_C5_fixed_count_build.1 Nat Rat cwI (fun _ => 0) 1 1 3 3
    ⟨some 3, 3, 4, 2, [1, 1, 1], []⟩ (by decide) (by rfl)
  have h2 := claim_C5_fixed_count_build.2 Nat Nat twT (fun _ => 0) 3
    (by decide)
  exact ⟨⟨h1.1, h1.2.1,
      h1.2.2.2.2 (fun s => s) (fun _ _ => rfl) (fun _ _ => rfl)
        (fun _ _ => rfl) rfl⟩,
    ⟨h2.1,
      h2.2.2.2.2 (fun s => s) (fun _ _ => rfl) (fun _ _ => rfl)
        (fun _ _ => rfl) rfl⟩⟩

/-- When the continuation test fails, the loop stops at once and returns the
current state regardless of the remaining fuel. -/
theorem loopIntersecting_stop {σ Q : Type} (w : IWorld σ Q) (crit : Crit)
    (qs : Nat → Q) (bss mr fuel : Nat) (agg : Option σ)
    (count qi merges : Nat) (placed : List σ) (checks : List Rat)
    (hc : contQ w crit agg count = false) :
    loopIntersecting w crit qs bss mr fuel agg count qi merges placed checks =
      some (.ok ⟨agg, count, qi, merges, placed,
        checks ++ measureI w crit agg⟩) := by
  cases fuel <;> simp [loopIntersecting, hc]

/-- C2: search exhaustion is fatal.  If the overlapping-contact search
completes its retry budget without finding an intersection, the build errors
out synchronously at exactly that point (the error records the retry budget
and the merges performed so far, and no aggregate is produced); the retry
loop with `max_retries = 0` fails without running any descent; and a
fixed-count build of at least two monomers with `max_retries = 0` fails with
zero merges performed, after only the two pose draws of the first placement.
-/
theorem claim_C2_search_exhaustion_raises {σ Q : Type} (w : IWorld σ Q)
    (crit : Crit) (qs : Nat → Q) (bss mr fuel : Nat) :
    (∀ (a : σ) (count qi merges : Nat) (placed : List σ) (checks : List Rat)
      (qif : Nat),
      contQ w crit (some a) count = true →
      translateUntilIntersecting w qs bss (w.rot w.fresh (qs qi)) mr
          (w.rot a (qs (qi + 1))) (qi + 2) = .error qif →
      loopIntersecting w crit qs bss mr (fuel + 1) (some a) count qi merges
          placed checks = some (.error ⟨mr, merges, qif⟩)) ∧
    (∀ (m a : σ) (qi : Nat),
      translateUntilIntersecting w qs bss m 0 a qi = .error qi) ∧
    (∀ n : Nat,
      loopIntersecting w (.count (n + 2)) qs bss 0 (fuel + 2) none 0 0 0 [] []
        = some (.error ⟨0, 0, 2⟩)) := by
  refine ⟨?_, ?_, ?_⟩
  · intro a count qi merges placed checks qif hc htr
    simp [loopIntersecting, hc, htr]
  · intro m a qi
    rfl
  · intro n
    have h0 : contQ w (.count (n + 2)) (none : Option σ) 0 = true := by
      simp [contQ]
    have h1 : contQ w (.count (n + 2)) (some w.fresh) 1 = true := by
      simp [contQ]
    have htr : translateUntilIntersecting w qs bss (w.rot w.fresh (qs 0)) 0
        (w.rot w.fresh (qs 1)) 2 = .error 2 := rfl
    show loopIntersecting w (.count (n + 2)) qs bss 0 ((fuel + 1) + 1) none
        0 0 0 [] [] = _
    simp [loopIntersecting, h0, h1, htr, measureI]

/-- Closed instance of C2 in the never-intersecting world: with a retry
budget of one, the loop step errors out with the retry budget in the message,
zero merges recorded, and the three quaternion draws consumed by the failed
placement. -/
theorem claim_C2_witness :
    loopIntersecting cwFail (Crit.count 2) (fun _ => (0 : Rat)) 1 1 1 (some 1)
        1 0 0 [1] [] = some (.error ⟨1, 0, 3⟩) :=
  (claim_C2_search_exhaustion_raises cwFail (Crit.count 2)
    (fun _ => (0 : Rat)) 1 1 0).1 1 1 0 0 [1] [] 3 (by rfl) (by rfl)

/-- C9 (amended): in the `EMPTY` state the first monomer requested from the
factory is promoted to the Aggregate unchanged — no random pose is applied to
it and no draw is consumed — and the builder transitions to `GROWING` (or the
build finishes immediately when the count target is 1, returning the fresh
monomer with zero draws and zero merges; likewise for the exact-touch
builder).  Random orientations are first applied when the second monomer is
placed. -/
theorem claim_C9_amended_first_monomer_unposed :
    (∀ (σ Q : Type) (w : IWorld σ Q) (crit : Crit) (qs : Nat → Q)
      (bss mr fuel count qi merges : Nat) (placed : List σ)
      (checks : List Rat),
      contQ w crit none count = true →
      loopIntersecting w crit qs bss mr (fuel + 1) none count qi merges placed
          checks =
        loopIntersecting w crit qs bss mr fuel (some w.fresh) (count + 1) qi
          merges (placed ++ [w.fresh]) (checks ++ measureI w crit none)) ∧
    (∀ (σ Q : Type) (w : IWorld σ Q) (qs : Nat → Q) (bss mr fuel : Nat),
      buildIntersecting w (.count 1) qs bss mr (fuel + 1) =
        some (.ok ⟨some w.fresh, 1, 0, 0, [w.fresh], []⟩)) ∧
    (∀ (σ E : Type) (w : TWorld σ E) (es : Nat → E),
      buildTouchingCount w es 1 = ⟨some w.fresh, 1, 0, 0, [w.fresh]⟩) := by
  refine ⟨?_, ?_, ?_⟩
  · intro σ Q w crit qs bss mr fuel count qi merges placed checks hc
    simp [loopIntersecting, hc]
  · intro σ Q w qs bss mr fuel
    have h0 : contQ w (.count 1) (none : Option σ) 0 = true := by
      simp [contQ]
    have h1 : contQ w (.count 1) (some w.fresh) 1 = false := by
      simp [contQ]
    have hstep : buildIntersecting w (.count 1) qs bss mr (fuel + 1) =
        loopIntersecting w (.count 1) qs bss mr fuel (some w.fresh) 1 0 0
          [w.fresh] [] := by
      simp [buildIntersecting, loopIntersecting, h0, measureI]
    rw [hstep, loopIntersecting_stop w (.count 1) qs bss mr fuel
      (some w.fresh) 1 0 0 [w.fresh] [] h1]
    simp [measureI]
  · intro σ E w es
    rfl

/-- Closed instance of the amended C9: promoting the first monomer is a pure
state transition consuming no draw and applying no pose. -/
theorem claim_C9_witness :
    loopIntersecting cwRot (Crit.count 2) (fun _ => (0 : Rat)) 1 1 2 none 0 0 0
        [] [] =
      loopIntersecting cwRot (Crit.count 2) (fun _ => (0 : Rat)) 1 1 1
        (some cwRot.fresh) 1 0 0 [cwRot.fresh] [] := by
  have h := claim_C9_amended_first_monomer_unposed.1 Nat Rat cwRot
    (Crit.count 2) (fun _ => (0 : Rat)) 1 1 1 0 0 0 [] [] (by rfl)
  simpa [measureI] using h

/-- Counterexample to C9 as stated: in a world whose rotation action visibly
changes the handle (`rot s q = s + 1`, fresh monomer `0`), a one-monomer
build returns the aggregate `0` — the untouched fresh monomer — with zero
quaternion draws consumed (`qi = 0`), while applying any initial random pose
to the first monomer before promotion would have produced the handle `1`.
The first monomer is therefore promoted without an initial random pose. -/
theorem claim_C9_counterexample :
    buildIntersecting cwRot (Crit.count 1) (fun _ => (0 : Rat)) 1 1 2 =
      some (.ok ⟨some 0, 1, 0, 0, [0], []⟩) ∧
    cwRot.rot cwRot.fresh ((fun _ => (0 : Rat)) 0) ≠ 0 := by
  constructor
  · rfl
  · simp [cwRot]

/-- Diameter-mode trace invariant for the overlapping-contact loop: a
finished run ends with an aggregate whose recorded measurement list has one
entry per `should_continue` evaluation on an existing aggregate (merges plus
one), every measurement except the last is strictly below the target, and the
last is the final aggregate's planar diameter, not below the target. -/
theorem loopIntersecting_diam_trace {σ Q : Type} (w : IWorld σ Q)
    (qs : Nat → Q) (bss mr : Nat) (t : Rat) :
    ∀ (fuel : Nat) (agg : Option σ) (count qi merges : Nat)
      (placed : List σ) (checks : List Rat) (r : IRes σ),
      loopIntersecting w (.diameter t) qs bss mr fuel agg count qi merges
          placed checks = some (.ok r) →
      (∀ d ∈ checks, d < t) → checks.length = merges →
      ∃ a, r.agg = some a ∧
        r.checks.length = r.merges + 1 ∧
        (∀ d ∈ r.checks.dropLast, d < t) ∧
        r.checks.getLast? = some (w.maxPlanarDiameter a) ∧
        ¬ w.maxPlanarDiameter a < t := by
  intro fuel
  induction fuel with
  | zero =>
    intro agg count qi merges placed checks r h hall hlen
    by_cases hc : contQ w (.diameter t) agg count = true
    · simp [loopIntersecting, hc] at h
    · have hc' : contQ w (.diameter t) agg count = false := by simpa using hc
      cases agg with
      | none => simp [contQ] at hc'
      | some a =>
        have hlt : ¬ w.maxPlanarDiameter a < t := by simpa [contQ] using hc'
        have hr : (⟨some a, count, qi, merges, placed,
            checks ++ [w.maxPlanarDiameter a]⟩ : IRes σ) = r := by
          simpa [loopIntersecting, hc', measureI] using h
        refine ⟨a, ?_, ?_, ?_, ?_, hlt⟩
        · rw [← hr]
        · rw [← hr]
          simp [hlen]
        · rw [← hr]
          simpa [List.dropLast_concat] using hall
        · rw [← hr]
          simp [List.getLast?_concat]
  | succ fuel ih =>
    intro agg count qi merges placed checks r h hall hlen
    by_cases hc : contQ w (.diameter t) agg count = true
    · cases agg with
      | none =>
        have h' : loopIntersecting w (.diameter t) qs bss mr fuel
            (some w.fresh) (count + 1) qi merges (placed ++ [w.fresh])
            checks = some (.ok r) := by
          simpa [loopIntersecting, hc, measureI] using h
        exact ih _ _ _ _ _ _ _ h' hall hlen
      | some a =>
        have hda : w.maxPlanarDiameter a < t := by simpa [contQ] using hc
        rcases htr : translateUntilIntersecting w qs bss
            (w.rot w.fresh (qs qi)) mr (w.rot a (qs (qi + 1))) (qi + 2)
          with qif | res
        · simp [loopIntersecting, hc, htr] at h
        · obtain ⟨a2, zf, qi2⟩ := res
          have h' : loopIntersecting w (.diameter t) qs bss mr fuel
              (some (w.merge a2 (w.place (w.rot w.fresh (qs qi)) zf)))
              (count + 1) qi2 (merges + 1)
              (placed ++ [w.place (w.rot w.fresh (qs qi)) zf])
              (checks ++ [w.maxPlanarDiameter a]) = some (.ok r) := by
            simpa [loopIntersecting, hc, htr, measureI] using h
          apply ih _ _ _ _ _ _ _ h'
          · intro d hd
            rcases List.mem_append.mp hd with hd | hd
            · exact hall d hd
            · simp at hd
              subst hd
              exact hda
          · simp [hlen]
    · have hc' : contQ w (.diameter t) agg count = false := by simpa using hc
      cases agg with
      | none => simp [contQ] at hc'
      | some a =>
        have hlt : ¬ w.maxPlanarDiameter a < t := by simpa [contQ] using hc'
        have hr : (⟨some a, count, qi, merges, placed,
            checks ++ [w.maxPlanarDiameter a]⟩ : IRes σ) = r := by
          simpa [loopIntersecting, hc', measureI] using h
        refine ⟨a, ?_, ?_, ?_, ?_, hlt⟩
        · rw [← hr]
        · rw [← hr]
          simp [hlen]
        · rw [← hr]
          simpa [List.dropLast_concat] using hall
        · rw [← hr]
          simp [List.getLast?_concat]

/-- Diameter-mode trace invariant for the exact-touch loop: a finished run
records the planar-diameter dict once after every merge, every recorded dict
except the last has all three entries strictly below the target, and the last
is the final aggregate's dict with some entry at or above the target. -/
theorem loopTouchingDiam_trace {σ E : Type} (w : TWorld σ E) (es : Nat → E)
    (t : Rat) :
    ∀ (fuel : Nat) (a : σ) (count ei merges : Nat) (placed : List σ)
      (checks : List (Rat × Rat × Rat)) (r : TDRes σ),
      loopTouchingDiam w es t fuel a count ei merges placed checks = some r →
      (∀ c ∈ checks, max c.1 (max c.2.1 c.2.2) < t) →
      checks.length = merges →
      r.checks.length = r.merges ∧ 1 ≤ r.merges ∧
        (∀ c ∈ r.checks.dropLast, max c.1 (max c.2.1 c.2.2) < t) ∧
        r.checks.getLast? = some (w.planarDiameters r.agg) ∧
        t ≤ max (w.planarDiameters r.agg).1
          (max (w.planarDiameters r.agg).2.1
            (w.planarDiameters r.agg).2.2) := by
  intro fuel
  induction fuel with
  | zero =>
    intro a count ei merges placed checks r h hall hlen
    simp [loopTouchingDiam] at h
  | succ fuel ih =>
    intro a count ei merges placed checks r h hall hlen
    by_cases hbr : t ≤ (w.planarDiameters (w.merge (w.rot a (es ei))
        (w.place w.fresh (translateUntilTouching w w.fresh
          (w.rot a (es ei)))))).1 ∨
      t ≤ (w.planarDiameters (w.merge (w.rot a (es ei))
        (w.place w.fresh (translateUntilTouching w w.fresh
          (w.rot a (es ei)))))).2.1 ∨
      t ≤ (w.planarDiameters (w.merge (w.rot a (es ei))
        (w.place w.fresh (translateUntilTouching w w.fresh
          (w.rot a (es ei)))))).2.2
    · have hr : (⟨w.merge (w.rot a (es ei))
          (w.place w.fresh (translateUntilTouching w w.fresh
            (w.rot a (es ei)))),
          count + 1, ei + 1, merges + 1,
          placed ++ [w.place w.fresh (translateUntilTouching w w.fresh
            (w.rot a (es ei)))],
          checks ++ [w.planarDiameters (w.merge (w.rot a (es ei))
            (w.place w.fresh (translateUntilTouching w w.fresh
              (w.rot a (es ei)))))]⟩ : TDRes σ) = r := by
        simpa [loopTouchingDiam, hbr] using h
      refine ⟨?_, ?_, ?_, ?_, ?_⟩
      · rw [← hr]
        simp [hlen]
      · rw [← hr]
        simp
      · rw [← hr]
        simpa [List.dropLast_concat] using hall
      · rw [← hr]
        simp [List.getLast?_concat]
      · rw [← hr]
        simp only
        rcases hbr with hb | hb | hb
        · exact le_max_of_le_left hb
        · exact le_max_of_le_right (le_max_of_le_left hb)
        · exact le_max_of_le_right (le_max_of_le_right hb)
    · have h' : loopTouchingDiam w es t fuel
          (w.merge (w.rot a (es ei))
            (w.place w.fresh (translateUntilTouching w w.fresh
              (w.rot a (es ei)))))
          (count + 1) (ei + 1) (merges + 1)
          (placed ++ [w.place w.fresh (translateUntilTouching w w.fresh
            (w.rot a (es ei)))])
          (checks ++ [w.planarDiameters (w.merge (w.rot a (es ei))
            (w.place w.fresh (translateUntilTouching w w.fresh
              (w.rot a (es ei)))))]) = some r := by
        simpa [loopTouchingDiam, hbr] using h
      apply ih _ _ _ _ _ _ _ h'
      · intro c hc
        rcases List.mem_append.mp hc with hc | hc
        · exact hall c hc
        · simp at hc
          subst hc
          push_neg at hbr
          exact max_lt hbr.1 (max_lt hbr.2.1 hbr.2.2)
      · simp [hlen]

/-- C3: For every diameter-terminated build that finishes, the planar
diameter measured immediately before the last merge is strictly below
`target_diameter`, the measurement immediately after the last merge is at or
above it, the diameter is recomputed after each merge (one recorded
measurement per merge, plus the first-monomer measurement in the
overlapping-contact builder), and at least one monomer beyond the threshold
is always included: every measurement that allowed the build to continue is
below the target and the final measurement — the final aggregate's planar
diameter — is not.  Stated for both builders; for the exact-touch builder the
planar diameter is the maximum entry of the recorded `(xy, xz, yz)` dict. -/
theorem claim_C3_diameter_termination :
    (∀ (σ Q : Type) (w : IWorld σ Q) (qs : Nat → Q) (bss mr fuel : Nat)
      (t : Rat) (r : IRes σ),
      buildIntersecting w (.diameter t) qs bss mr fuel = some (.ok r) →
      ∃ a, r.agg = some a ∧ r.checks.length = r.merges + 1 ∧
        (∀ d ∈ r.checks.dropLast, d < t) ∧
        r.checks.getLast? = some (w.maxPlanarDiameter a) ∧
        t ≤ w.maxPlanarDiameter a) ∧
    (∀ (σ E : Type) (w : TWorld σ E) (es : Nat → E) (t : Rat) (fuel : Nat)
      (r : TDRes σ),
      buildTouchingDiam w es t fuel = some r →
      r.checks.length = r.merges ∧ 1 ≤ r.merges ∧
        (∀ c ∈ r.checks.dropLast, max c.1 (max c.2.1 c.2.2) < t) ∧
        r.checks.getLast? = some (w.planarDiameters r.agg) ∧
        t ≤ max (w.planarDiameters r.agg).1
          (max (w.planarDiameters r.agg).2.1
            (w.planarDiameters r.agg).2.2)) := by
  constructor
  · intro σ Q w qs bss mr fuel t r h
    obtain ⟨a, ha, hl, hd, hg, hn⟩ := loopIntersecting_diam_trace w qs bss mr
      t fuel none 0 0 0 [] [] r h (by intro d hd; cases hd) rfl
    exact ⟨a, ha, hl, hd, hg, not_lt.mp hn⟩
  · intro σ E w es t fuel r h
    exact loopTouchingDiam_trace w es t fuel w.fresh 1 0 0 [w.fresh] [] r h
      (by intro c hc; cases hc) rfl

/-- Closed instance of C3 in the counting worlds with target diameter 3: the
overlapping-contact build records measurements 1, 2, 3 (the first two below
the target, the last at the target and equal to the final aggregate's planar
diameter); the exact-touch build records dicts (2, 2, 1) and (3, 3, 1). -/
theorem claim_C3_witness :
    (∃ a, (⟨some 3, 3, 4, 2, [1, 1, 1], [1, 2, 3]⟩ : IRes Nat).agg = some a ∧
      (⟨some 3, 3, 4, 2, [1, 1, 1], [1, 2, 3]⟩ : IRes Nat).checks.length =
        (⟨some 3, 3, 4, 2, [1, 1, 1], [1, 2, 3]⟩ : IRes Nat).merges + 1 ∧
      (∀ d ∈ (⟨some 3, 3, 4, 2, [1, 1, 1],
          [1, 2, 3]⟩ : IRes Nat).checks.dropLast, d < 3) ∧
      (⟨some 3, 3, 4, 2, [1, 1, 1], [1, 2, 3]⟩ : IRes Nat).checks.getLast? =
        some (cwI.maxPlanarDiameter a) ∧
      (3 : Rat) ≤ cwI.maxPlanarDiameter a) ∧
    (1 ≤ (⟨3, 3, 2, 2, [1, 1, 1],
        [(2, 2, 1), (3, 3, 1)]⟩ : TDRes Nat).merges ∧
      (3 : Rat) ≤ max (twT.planarDiameters
          (⟨3, 3, 2, 2, [1, 1, 1], [(2, 2, 1), (3, 3, 1)]⟩ : TDRes Nat).agg).1
        (max (twT.planarDiameters (⟨3, 3, 2, 2, [1, 1, 1],
            [(2, 2, 1), (3, 3, 1)]⟩ : TDRes Nat).agg).2.1
          (twT.planarDiameters (⟨3, 3, 2, 2, [1, 1, 1],
            [(2, 2, 1), (3, 3, 1)]⟩ : TDRes Nat).agg).2.2)) := by
  have hbuild : buildIntersecting cwI (.diameter 3) (fun _ => (0 : Rat)) 1 1 4
      = some (.ok ⟨some 3, 3, 4, 2, [1, 1, 1], [1, 2, 3]⟩) := by
    norm_num [buildIntersecting, loopIntersecting, contQ, measureI,
      translateUntilIntersecting, descend, cwI, IWorld.maxPlanarDiameter,
      maxPlanarOfExtents, max_def]
  have hbuildT : buildTouchingDiam twT (fun _ => 0) 3 2 =
      some ⟨3, 3, 2, 2, [1, 1, 1], [(2, 2, 1), (3, 3, 1)]⟩ := by
    norm_num [buildTouchingDiam, loopTouchingDiam, twT,
      TWorld.planarDiameters, planarDiametersOfExtents, max_def]
  have h1 := claim_C3_diameter_termination.1 Nat Rat cwI (fun _ => (0 : Rat))
    1 1 4 3 ⟨some 3, 3, 4, 2, [1, 1, 1], [1, 2, 3]⟩ hbuild
  have h2 := claim_C3_diameter_termination.2 Nat Nat twT (fun _ => 0) 3 2
    ⟨3, 3, 2, 2, [1, 1, 1], [(2, 2, 1), (3, 3, 1)]⟩ hbuildT
  exact ⟨h1, h2.2.1, h2.2.2.2.2⟩

/-- The source's indexed step loop computes exactly the test-and-move
recurrence positions. -/
theorem translateTouchingAux_eq_touchPosSeq (mh : Rat) (isect : Rat → Bool)
    (z0 : Rat) :
    ∀ (n i : Nat),
      translateTouchingAux mh isect (touchPosSeq mh isect z0 i) i n =
        touchPosSeq mh isect z0 (i + n) := by
  intro n
  induction n with
  | zero =>
    intro i
    rw [translateTouchingAux]
    congr 1
  | succ n ih =>
    intro i
    rw [translateTouchingAux]
    have hstep : (if isect (touchPosSeq mh isect z0 i) then
        touchPosSeq mh isect z0 i + mh / 2 ^ i
      else touchPosSeq mh isect z0 i - mh / 2 ^ i) =
        touchPosSeq mh isect z0 (i + 1) := by
      rw [touchPosSeq]
    rw [hstep, ih (i + 1)]
    congr 1
    omega

/-- C4 (amended): the exact-touch search starts the monomer offset above the
aggregate by the sum of their half bounding z heights and runs 10 iterations
(the hard-coded `num_steps`, equal to the default `binary_search_steps`; the
`Aggregate` class takes no such parameter); at iteration i the step is the
monomer's FULL bounding z height divided by `2 ^ i` — equivalently the
half-height divided by `2 ^ (i - 1)`, not the half-height divided by `2 ^ i`
as the claim stated — and the monomer moves up by the step when the
intersection test fires, down otherwise.  The search is a pure function of
the two solids: no retries and no randomness. -/
theorem claim_C4_amended_exact_touch {σ E : Type} (w : TWorld σ E) (m a : σ) :
    translateUntilTouching w m a =
      touchPosSeq (w.zHeight m) (fun z => w.isect m z a)
        ((w.zHeight a + w.zHeight m) / 2) 10 ∧
    touchPosSeq (w.zHeight m) (fun z => w.isect m z a)
        ((w.zHeight a + w.zHeight m) / 2) 0 =
      (w.zHeight a + w.zHeight m) / 2 ∧
    (∀ i, touchPosSeq (w.zHeight m) (fun z => w.isect m z a)
        ((w.zHeight a + w.zHeight m) / 2) (i + 1) =
      if w.isect m (touchPosSeq (w.zHeight m) (fun z => w.isect m z a)
          ((w.zHeight a + w.zHeight m) / 2) i) a then
        touchPosSeq (w.zHeight m) (fun z => w.isect m z a)
          ((w.zHeight a + w.zHeight m) / 2) i + w.zHeight m / 2 ^ i
      else
        touchPosSeq (w.zHeight m) (fun z => w.isect m z a)
          ((w.zHeight a + w.zHeight m) / 2) i - w.zHeight m / 2 ^ i) := by
  refine ⟨?_, rfl, fun i => by rw [touchPosSeq]⟩
  have h := translateTouchingAux_eq_touchPosSeq (w.zHeight m)
    (fun z => w.isect m z a) ((w.zHeight a + w.zHeight m) / 2) 10 0
  simpa [translateUntilTouching, touchPosSeq] using h

/-- Counterexample to C4 as stated: with monomer and aggregate both of
bounding z height 2 and an intersection oracle that never fires, the source
search (step = full height / 2^i) descends to -511/256, while the spec-stated
step sizes (half height / 2^i) from the same start would end at 1/512; the
two disagree, so the step size is the full bounding-box height over `2 ^ i`,
not the half-height over `2 ^ i`. -/
theorem claim_C4_counterexample :
    translateUntilTouching twC4 () () = -511 / 256 ∧
    translateTouchingSpecAux 2 (fun _ => false) 2 0 10 = 1 / 512 ∧
    ((-511 : Rat) / 256) ≠ 1 / 512 := by
  refine ⟨?_, ?_, by norm_num⟩
  · norm_num [translateUntilTouching, translateTouchingAux, twC4,
      TWorld.zHeight]
  · norm_num [translateTouchingSpecAux]

/-- C6: two builds constructed with identical configuration, including the
same seed, produce bit-identical pose streams and bit-identical runs: with a
seed present, the draw stream is the deterministic function of the seed and
does not depend on the entropy source, so the whole build outcome — in
particular the sequence of sampled poses — is a function of the seed and the
configuration alone. -/
theorem claim_C6_seed_determinism :
    (∀ (Q : Type) (prng : Nat → Nat → Q) (ent1 ent2 : Nat → Q) (s : Nat),
      rngStream prng ent1 (some s) = prng s ∧
      rngStream prng ent1 (some s) = rngStream prng ent2 (some s)) ∧
    (∀ (σ Q : Type) (w : IWorld σ Q) (crit : Crit) (prng : Nat → Nat → Q)
      (ent1 ent2 : Nat → Q) (s : Nat) (bss mr fuel : Nat),
      buildIntersecting w crit (rngStream prng ent1 (some s)) bss mr fuel =
        buildIntersecting w crit (rngStream prng ent2 (some s)) bss mr fuel ∧
      ∀ k : Nat, (List.range k).map (rngStream prng ent1 (some s)) =
        (List.range k).map (rngStream prng ent2 (some s))) :=
  ⟨fun _ _ _ _ _ => ⟨rfl, rfl⟩,
    fun _ _ _ _ _ _ _ _ _ _ _ => ⟨rfl, fun _ => rfl⟩⟩

/-- C7: constructing an aggregate builder with both of fixed count / target
diameter, or with neither, and constructing an indented column with a
normalized indentation fraction outside `[0, 1]`, raises a `ValueError` at
construction — the validation functions run in `__init__` before any
geometry work, and they reject exactly those inputs. -/
theorem claim_C7_configuration_errors :
    (∀ (n : Option Nat) (t : Option Rat),
      (∃ e, validateAggregateConfig n t = .error e) ↔
        ((n = none ∧ t = none) ∨ (n ≠ none ∧ t ≠ none))) ∧
    (∀ a : Rat,
      (∃ e, validateIndentation a = .error e) ↔ (a < 0 ∨ 1 < a)) := by
  constructor
  · rintro (_ | n) (_ | t) <;> simp [validateAggregateConfig]
  · intro a
    by_cases h : a < 0 ∨ a > 1
    · simp only [validateIndentation, if_pos h]
      exact ⟨fun _ => h, fun _ => ⟨_, rfl⟩⟩
    · simp only [validateIndentation, if_neg h]
      constructor
      · rintro ⟨e, he⟩
        cases he
      · intro hcontra
        exact absurd hcontra h

/-- The pairwise maximum over the three axis pairs collapses to the overall
maximum of the three extents. -/
theorem maxPlanarOfExtents_collapse (ex ey ez : Rat) :
    maxPlanarOfExtents ex ey ez = max ex (max ey ez) := by
  apply le_antisymm
  · exact max_le
      (max_le (le_max_left _ _) (le_max_of_le_right (le_max_left _ _)))
      (max_le
        (max_le (le_max_left _ _) (le_max_of_le_right (le_max_right _ _)))
        (max_le (le_max_of_le_right (le_max_left _ _))
          (le_max_of_le_right (le_max_right _ _))))
  · exact max_le (le_max_of_le_left (le_max_left _ _))
      (max_le (le_max_of_le_left (le_max_right _ _))
        (le_max_of_le_right (le_max_of_le_left (le_max_right _ _))))

/-- C10: the maximum planar diameter computed by the builders (max over the
three axis pairs of the larger of the two extents in that pair) equals the
maximum of the three single-axis bounding-box extents, both for
`_get_max_planar_diameter` and for the dict of `_get_planar_diameters`. -/
theorem claim_C10_planar_diameter_collapse :
    (∀ ex ey ez : Rat,
      maxPlanarOfExtents ex ey ez = max ex (max ey ez)) ∧
    (∀ ex ey ez : Rat,
      max (planarDiametersOfExtents ex ey ez).1
        (max (planarDiametersOfExtents ex ey ez).2.1
          (planarDiametersOfExtents ex ey ez).2.2) = max ex (max ey ez)) ∧
    (∀ (σ Q : Type) (w : IWorld σ Q) (s : σ),
      w.maxPlanarDiameter s = max (w.xMax s - w.xMin s)
        (max (w.yMax s - w.yMin s) (w.zMax s - w.zMin s))) := by
  refine ⟨maxPlanarOfExtents_collapse, ?_, ?_⟩
  · intro ex ey ez
    have h := maxPlanarOfExtents_collapse ex ey ez
    simpa [planarDiametersOfExtents, maxPlanarOfExtents] using h
  · intro σ Q w s
    exact maxPlanarOfExtents_collapse _ _ _

/-- The folded angle is never obtuse: `acos` of an absolute value lies in
`[0, pi/2]`, so the dead guard `angle > pi/2` in the source can never fire.
-/
theorem foldedAngle_le_pi_div_two {V : Type} (dotf : V → V → Real)
    (k1 k2 : V) : foldedAngle dotf k1 k2 ≤ Real.pi / 2 :=
  Real.arccos_le_pi_div_two.mpr (abs_nonneg _)

/-- A pair that fails the overlap test satisfies the separation bound. -/
theorem sep_of_not_overlap {V : Type} (dotf : V → V → Real) (k1 : V)
    (r1 l1 : Real) (k2 : V) (r2 l2 : Real)
    (h : ¬ overlapProp dotf k1 r1 l1 k2 r2 l2) :
    (r1 + r2) / (2 * min l1 l2) ≤ Real.sin (foldedAngle dotf k1 k2 / 2) := by
  by_contra hlt
  exact h ⟨foldedAngle_le_pi_div_two dotf k1 k2, not_le.mp hlt⟩

/-- The folded angle is symmetric whenever the dot product is. -/
theorem foldedAngle_symm {V : Type} (dotf : V → V → Real)
    (hsym : ∀ u v, dotf u v = dotf v u) (k1 k2 : V) :
    foldedAngle dotf k1 k2 = foldedAngle dotf k2 k1 := by
  unfold foldedAngle
  rw [hsym]

/-- A successful candidate search returns a stream element that the overlap
procedure clears against every existing record. -/
theorem findNonOverlappingRotation_some {V : Type}
    (chk : V → ColRec V → Bool) (cands : Nat → V)
    (existing : List (ColRec V)) :
    ∀ (attempts ci : Nat) (k : V) (ci2 : Nat),
      findNonOverlappingRotation chk cands existing ci attempts =
        some (k, ci2) →
      (∃ j, k = cands j) ∧ ∀ c ∈ existing, chk k c = false := by
  intro attempts
  induction attempts with
  | zero =>
    intro ci k ci2 h
    simp [findNonOverlappingRotation] at h
  | succ a ih =>
    intro ci k ci2 h
    by_cases hov : existing.any (fun c => chk (cands ci) c) = true
    · have h' : findNonOverlappingRotation chk cands existing (ci + 1) a =
          some (k, ci2) := by
        simpa [findNonOverlappingRotation, hov] using h
      exact ih _ _ _ h'
    · have hov' : existing.any (fun c => chk (cands ci) c) = false := by
        simpa using hov
      have hk : cands ci = k ∧ ci + 1 = ci2 := by
        simpa [findNonOverlappingRotation, hov'] using h
      obtain ⟨hk1, _⟩ := hk
      subst hk1
      refine ⟨⟨ci, rfl⟩, ?_⟩
      intro c hc
      have hall := List.any_eq_false.mp hov'
      have := hall c hc
      simpa using this

/-- Invariant of the rosette bullet loop: starting from a record list drawn
from the candidate stream and pairwise separated, the list stays drawn from
the stream and pairwise separated — a successful search appends a record that
cleared the overlap procedure against every prior record, a failed search
appends nothing. -/
theorem rosetteRecords_inv {V : Type} (dotf : V → V → Real)
    (chk : V → ColRec V → Bool) (cands : Nat → V) (R L : Real)
    (attempts : Nat) (hsym : ∀ u v, dotf u v = dotf v u)
    (hchk : ∀ j j2 : Nat, chk (cands j) ⟨cands j2, R, L⟩ = true ↔
      overlapProp dotf (cands j) R L (cands j2) R L) :
    ∀ (m : Nat) (recs : List (ColRec V)) (ci : Nat),
      (∀ c ∈ recs, ∃ j, c = ⟨cands j, R, L⟩) →
      recs.Pairwise (rosetteSeparation dotf) →
      (∀ c ∈ rosetteRecords chk cands R L attempts m recs ci,
        ∃ j, c = ⟨cands j, R, L⟩) ∧
      (rosetteRecords chk cands R L attempts m recs ci).Pairwise
        (rosetteSeparation dotf) := by
  intro m
  induction m with
  | zero =>
    intro recs ci hmem hpw
    rw [rosetteRecords]
    exact ⟨hmem, hpw⟩
  | succ m ih =>
    intro recs ci hmem hpw
    rcases hf : findNonOverlappingRotation chk cands recs ci attempts
      with _ | kci
    · simp only [rosetteRecords, hf]
      exact ih recs (ci + attempts) hmem hpw
    · obtain ⟨k, ci2⟩ := kci
      obtain ⟨⟨j, hkj⟩, hall⟩ :=
        findNonOverlappingRotation_some chk cands recs attempts ci k ci2 hf
      simp only [rosetteRecords, hf]
      apply ih
      · intro c hc
        rcases List.mem_append.mp hc with hc | hc
        · exact hmem c hc
        · simp at hc
          exact ⟨j, by rw [hc, hkj]⟩
      · rw [List.pairwise_append]
        refine ⟨hpw, List.pairwise_singleton _ _, ?_⟩
        intro c hc b hb
        simp at hb
        subst hb
        obtain ⟨j2, hj2⟩ := hmem c hc
        have hfalse : chk (cands j) ⟨cands j2, R, L⟩ = false := by
          rw [← hkj, ← hj2]
          exact hall c hc
        have hnov : ¬ overlapProp dotf (cands j) R L (cands j2) R L := by
          intro hcontra
          rw [(hchk j j2).mpr hcontra] at hfalse
          cases hfalse
        have hsep := sep_of_not_overlap dotf (cands j) R L (cands j2) R L
          hnov
        unfold rosetteSeparation
        rw [hj2, hkj]
        simp only
        rw [foldedAngle_symm dotf hsym]
        rw [add_comm R R] at hsep
        exact hsep

/-- C8: in the rosette builder, any two column-axis records (k1, r1, l1) and
(k2, r2, l2) in the recorded list after the build satisfy
sin(theta/2) at least (r1 + r2) / (2 * min(l1, l2)), where theta is the
angular separation of the two axes folded into [0, pi/2].  The invariant
holds for every overlap procedure that agrees with the real-number overlap
predicate on the candidate stream (the source's float comparison), because a
candidate is recorded only after clearing the check against every prior
record, and a monomer whose search exhausts the attempt budget is skipped
without a record. -/
theorem claim_C8_rosette_axis_separation {V : Type} (dotf : V → V → Real)
    (chk : V → ColRec V → Bool) (cands : Nat → V) (R L : Real)
    (attempts n : Nat) (hsym : ∀ u v, dotf u v = dotf v u)
    (hchk : ∀ j j2 : Nat, chk (cands j) ⟨cands j2, R, L⟩ = true ↔
      overlapProp dotf (cands j) R L (cands j2) R L) :
    (rosetteRun chk cands R L attempts n).Pairwise
      (rosetteSeparation dotf) := by
  have h := rosetteRecords_inv dotf chk cands R L attempts hsym hchk (n - 1)
    [⟨cands 0, R, L⟩] 1
    (by intro c hc; simp at hc; exact ⟨0, hc⟩)
    (List.pairwise_singleton _ _)
  exact h.2

/-- Coinciding axes overlap under the two-axis dot model (radius 1,
length 4). -/
theorem overlapB_same (b : Bool) : overlapProp dotB b 1 4 b 1 4 := by
  have hdot : dotB b b = 1 := by simp [dotB]
  have hfold : foldedAngle dotB b b = 0 := by
    rw [foldedAngle, clampDot, hdot]
    norm_num [Real.arccos_one]
  constructor
  · rw [hfold]
    positivity
  · rw [hfold]
    rw [min_self]
    norm_num [Real.sin_zero]

/-- Orthogonal axes do not overlap under the two-axis dot model. -/
theorem not_overlapB_ne {a b : Bool} (h : a ≠ b) :
    ¬ overlapProp dotB a 1 4 b 1 4 := by
  have hdot : dotB a b = 0 := by
    cases a <;> cases b <;> simp_all [dotB]
  have hfold : foldedAngle dotB a b = Real.pi / 2 := by
    rw [foldedAngle, clampDot, hdot]
    norm_num [Real.arccos_zero]
  rintro ⟨_, hB⟩
  rw [hfold, show Real.pi / 2 / 2 = Real.pi / 4 by ring,
    Real.sin_pi_div_four, min_self] at hB
  have h2 : (1 : Real) ≤ Real.sqrt 2 := by
    rw [show (1 : Real) = Real.sqrt 1 by simp]
    exact Real.sqrt_le_sqrt (by norm_num)
  norm_num at hB
  linarith

/-- The two-axis dot model is symmetric. -/
theorem dotB_symm : ∀ u v : Bool, dotB u v = dotB v u := by
  intro u v
  cases u <;> cases v <;> simp [dotB]

/-- The boolean overlap procedure of the witness world decides the real
overlap predicate on the alternating candidate stream. -/
theorem chkB_spec : ∀ j j2 : Nat,
    chkB (candsB j) ⟨candsB j2, 1, 4⟩ = true ↔
      overlapProp dotB (candsB j) 1 4 (candsB j2) 1 4 := by
  intro j j2
  by_cases h : candsB j = candsB j2
  · rw [h]
    simp only [chkB]
    exact iff_of_true (by simp) (overlapB_same _)
  · simp only [chkB]
    have hne : (candsB j == candsB j2) = false := by
      simpa using h
    rw [hne]
    exact iff_of_false (by simp) (not_overlapB_ne h)

/-- Closed instance of C8: a three-bullet rosette run over the two-axis
model, with its overlap procedure proven to decide the real overlap
predicate, yields a pairwise-separated record list. -/
theorem claim_C8_witness :
    (rosetteRun chkB candsB 1 4 2 3).Pairwise (rosetteSeparation dotB) :=
  claim_C8_rosette_axis_separation dotB chkB candsB 1 4 2 3 dotB_symm
    chkB_spec
